import Mathlib

/-
Verification of the hierarchy-level-assignment and graph-construction core
of the territory visualizer (src/tm-app.py).

The two functions under study are determine_levels (with its inner recursive
assign_levels) and create_graph.  They are embedded shallowly:

* a territory record carries the three fields the core reads
  (Id, Name, ParentTerritory2Id);
* the Python dict `levels` is a list of key/value pairs with in-place
  overwrite (setKey) and first-match lookup (getKey), which reproduces
  insertion-order dict semantics;
* the defaultdict `children` is kept as the list of (parent, child) pairs in
  insertion order; children[p] is recovered by childrenOf;
* the unbounded recursion of assign_levels is given a step-count fuel; a
  result of none models nontermination / RecursionError, and a claim about a
  completed run is stated for every fuel that yields some result;
* create_graph returns none where the Python code would raise KeyError on a
  missing level entry.
-/

namespace TmApp

structure Territory where
  Id : String
  Name : String
  ParentTerritory2Id : Option String
deriving DecidableEq, Repr

abbrev Levels := List (String × Nat)

abbrev EdgeList := List (String × String)

/-- Python truthiness of the ParentTerritory2Id field as tested by
`if parent:` in the source: None and the empty string are falsy; any other
string is truthy and the field's own value is used. -/
def truthyParent : Option String → Option String
  | none => none
  | some s => if s = "" then none else some s

/-- Python dict assignment d[k] = v: overwrite in place when the key exists,
append at the end otherwise (insertion-order semantics). -/
def setKey : Levels → String → Nat → Levels
  | [], k, v => [(k, v)]
  | (k0, v0) :: rest, k, v =>
    if k0 = k then (k, v) :: rest else (k0, v0) :: setKey rest k v

/-- Python dict lookup d[k] (first matching key, none when absent). -/
def getKey : Levels → String → Option Nat
  | [], _ => none
  | (k0, v0) :: rest, k => if k0 = k then some v0 else getKey rest k

/-- children[p] of the defaultdict built by determine_levels: the child ids
appended under parent p, in input order. -/
def childrenOf (E : EdgeList) (p : String) : List String :=
  (E.filter (fun e => e.1 == p)).map (fun e => e.2)

/-- The first loop of determine_levels: walk the territory list once,
assigning level 0 to every record whose parent field is falsy and appending
(parent, id) to the children index for every record whose parent is truthy. -/
def buildMapsAux : Levels → EdgeList → List Territory → Levels × EdgeList
  | ls, es, [] => (ls, es)
  | ls, es, t :: rest =>
    match truthyParent t.ParentTerritory2Id with
    | some p => buildMapsAux ls (es ++ [(p, t.Id)]) rest
    | none => buildMapsAux (setKey ls t.Id 0) es rest

def buildMaps (ts : List Territory) : Levels × EdgeList :=
  buildMapsAux [] [] ts

/-- The body of the recursive assign_levels: the for-loop over
children[node], which sets levels[child] = level + 1 and then recurses into
the child.  fuel counts recursion steps; none models a recursion that never
finishes (in Python: RecursionError). -/
def assignLoop (E : EdgeList) : Nat → Levels → List String → Nat → Option Levels
  | 0, _, _, _ => none
  | _ + 1, levels, [], _ => some levels
  | fuel + 1, levels, c :: rest, level =>
    match assignLoop E fuel (setKey levels c (level + 1)) (childrenOf E c) (level + 1) with
    | none => none
    | some levels2 => assignLoop E fuel levels2 rest level

/-- assign_levels(node, level) of the source: run the child loop on
children[node]. -/
def assign_levels (E : EdgeList) (fuel : Nat) (levels : Levels) (node : String)
    (level : Nat) : Option Levels :=
  assignLoop E fuel levels (childrenOf E node) level

/-- The final loop of determine_levels: for node in initial_nodes,
assign_levels(node, 0). -/
def runRoots (E : EdgeList) (fuel : Nat) : Levels → List String → Option Levels
  | levels, [] => some levels
  | levels, r :: rest =>
    match assign_levels E fuel levels r 0 with
    | none => none
    | some levels2 => runRoots E fuel levels2 rest

/-- determine_levels of the source: build the root levels and the children
index, snapshot the root ids, then traverse from each root. -/
def determine_levels (fuel : Nat) (territories : List Territory) : Option Levels :=
  runRoots (buildMaps territories).2 fuel (buildMaps territories).1
    (((buildMaps territories).1).map Prod.fst)

/-- The fixed edge-color palette of create_graph. -/
def colors : List String :=
  ["black", "blue", "green", "red", "purple", "orange"]

/-- colors[level % len(colors)] of the source. -/
def colorFor (level : Nat) : String :=
  colors.getD (level % colors.length) ""

/-- The abstract graph description create_graph hands to the layout engine:
node entries (id, label) and directed edge entries (from-id, to-id, color). -/
structure GraphDescription where
  nodes : List (String × String)
  edges : List (String × String × String)
deriving DecidableEq, Repr

/-- The loop of create_graph over the territory list: one node per record;
for each record with a truthy parent, look its id up in the level map (a
missing entry is the KeyError of the source, modelled as none) and emit one
colored edge from the parent id to the record id. -/
def create_graphAux (levels : Levels) :
    List Territory → Option (List (String × String) × List (String × String × String))
  | [] => some ([], [])
  | t :: rest =>
    match truthyParent t.ParentTerritory2Id with
    | none =>
      match create_graphAux levels rest with
      | none => none
      | some (ns, es) => some ((t.Id, t.Name) :: ns, es)
    | some p =>
      match getKey levels t.Id with
      | none => none
      | some level =>
        match create_graphAux levels rest with
        | none => none
        | some (ns, es) =>
          some ((t.Id, t.Name) :: ns, (p, t.Id, colorFor level) :: es)

/-- create_graph of the source, restricted to the abstract graph description
it builds (the file-rendering call is the external layout engine's side). -/
def create_graph (territories : List Territory) (levels : Levels) :
    Option GraphDescription :=
  match create_graphAux levels territories with
  | none => none
  | some (ns, es) => some { nodes := ns, edges := es }

/-- Modelled from the spec: the children index that the spec's duplicate-id
policy describes, in which only the last-seen parent association of each id
counts.  Used solely to compare the spec's words with the source's index. -/
def lastParentOf (ts : List Territory) (x : String) : Option String :=
  match ts.reverse.find? (fun t => t.Id == x) with
  | none => none
  | some t => truthyParent t.ParentTerritory2Id

/-- Modelled from the spec: children of p under a last-seen-wins index. -/
def childrenLastSeen (ts : List Territory) (p : String) : List String :=
  ((ts.map Territory.Id).eraseDups).filter (fun x => lastParentOf ts x == some p)

/-! ### Dict lemmas -/

theorem getKey_setKey_self (m : Levels) (k : String) (v : Nat) :
    getKey (setKey m k v) k = some v := by
  induction m with
  | nil => simp [setKey, getKey]
  | cons hd tl ih =>
    obtain ⟨k0, v0⟩ := hd
    by_cases hk : k0 = k
    · simp [setKey, getKey, hk]
    · simp [setKey, getKey, hk, ih]

theorem getKey_setKey_ne (m : Levels) (k k2 : String) (v : Nat) (h : k2 ≠ k) :
    getKey (setKey m k v) k2 = getKey m k2 := by
  induction m with
  | nil => simp [setKey, getKey, Ne.symm h]
  | cons hd tl ih =>
    obtain ⟨k0, v0⟩ := hd
    by_cases hk : k0 = k
    · subst hk
      simp [setKey, getKey, Ne.symm h]
    · by_cases hk2 : k0 = k2
      · subst hk2
        simp [setKey, getKey, hk]
      · simp [setKey, getKey, hk, hk2, ih]

theorem setKey_keys (m : Levels) (k : String) (v : Nat) :
    (setKey m k v).map Prod.fst =
      if k ∈ m.map Prod.fst then m.map Prod.fst else m.map Prod.fst ++ [k] := by
  induction m with
  | nil => simp [setKey]
  | cons hd tl ih =>
    obtain ⟨k0, v0⟩ := hd
    by_cases hk : k0 = k
    · subst hk
      simp [setKey]
    · have hne : ¬ k = k0 := fun hh => hk hh.symm
      by_cases hmem : k ∈ tl.map Prod.fst <;>
        simp [setKey, hk, hne, hmem, ih]

theorem setKey_keys_nodup (m : Levels) (k : String) (v : Nat)
    (h : (m.map Prod.fst).Nodup) : ((setKey m k v).map Prod.fst).Nodup := by
  rw [setKey_keys]
  by_cases hmem : k ∈ m.map Prod.fst
  · simpa [hmem] using h
  · rw [if_neg hmem, List.nodup_append]
    refine ⟨h, List.nodup_singleton k, ?_⟩
    intro a ha hb
    rw [List.mem_singleton] at hb
    subst hb
    exact hmem ha

theorem getKey_isSome_iff (m : Levels) (k : String) :
    (getKey m k).isSome ↔ k ∈ m.map Prod.fst := by
  induction m with
  | nil => simp [getKey]
  | cons hd tl ih =>
    obtain ⟨k0, v0⟩ := hd
    by_cases hk : k0 = k
    · simp [getKey, hk]
    · have hk2 : ¬ k = k0 := fun hh => hk hh.symm
      simp [getKey, hk, hk2, ih]

theorem getKey_eq_none_of_not_mem (m : Levels) (k : String)
    (h : k ∉ m.map Prod.fst) : getKey m k = none := by
  cases hg : getKey m k with
  | none => rfl
  | some v =>
    exact absurd ((getKey_isSome_iff m k).1 (by simp [hg])) h

/-! ### Children-index lemmas -/

theorem mem_childrenOf (E : EdgeList) (p c : String) :
    c ∈ childrenOf E p ↔ (p, c) ∈ E := by
  constructor
  · intro h
    simp only [childrenOf, List.mem_map, List.mem_filter, beq_iff_eq] at h
    obtain ⟨e, ⟨he, hfst⟩, hsnd⟩ := h
    have : e = (p, c) := Prod.ext hfst hsnd
    exact this ▸ he
  · intro h
    simp only [childrenOf, List.mem_map, List.mem_filter, beq_iff_eq]
    exact ⟨(p, c), ⟨h, rfl⟩, rfl⟩

theorem childrenOf_subset_targets (E : EdgeList) (p c : String)
    (h : c ∈ childrenOf E p) : c ∈ E.map Prod.snd := by
  rw [mem_childrenOf] at h
  exact List.mem_map.2 ⟨(p, c), h, rfl⟩

theorem childrenOf_nodup (E : EdgeList) (p : String)
    (h : (E.map Prod.snd).Nodup) : (childrenOf E p).Nodup := by
  have hsub : (childrenOf E p).Sublist (E.map Prod.snd) :=
    List.Sublist.map Prod.snd (List.filter_sublist E)
  exact List.Nodup.sublist hsub h

/-- Under distinct edge targets, each node has at most one incoming edge. -/
theorem unique_incoming (E : EdgeList) (h : (E.map Prod.snd).Nodup)
    {y1 y2 x : String} (h1 : (y1, x) ∈ E) (h2 : (y2, x) ∈ E) : y1 = y2 := by
  have := List.inj_on_of_nodup_map h h1 h2 rfl
  exact congrArg Prod.fst this

/-! ### Paths along the children index -/

/-- PathN E a b n: n traversal steps lead from a to b along edges of E. -/
inductive PathN (E : EdgeList) : String → String → Nat → Prop
  | refl (a : String) : PathN E a a 0
  | snoc {a b c : String} {n : Nat} :
      PathN E a b n → (b, c) ∈ E → PathN E a c (n + 1)

theorem PathN.cons {E : EdgeList} {a b c : String} {n : Nat}
    (hab : (a, b) ∈ E) (h : PathN E b c n) : PathN E a c (n + 1) := by
  induction h with
  | refl => exact PathN.snoc (PathN.refl a) hab
  | snoc hp he ih => exact PathN.snoc ih he

theorem pathN_zero {E : EdgeList} {a b : String} (h : PathN E a b 0) : a = b := by
  cases h
  rfl

theorem pathN_head {E : EdgeList} {a c : String} {n : Nat}
    (h : PathN E a c (n + 1)) : ∃ b, (a, b) ∈ E ∧ PathN E b c n := by
  induction n generalizing c with
  | zero =>
    cases h with
    | snoc hp he =>
      have := pathN_zero hp
      subst this
      exact ⟨c, he, PathN.refl c⟩
  | succ k ih =>
    cases h with
    | snoc hp he =>
      obtain ⟨b, hab, hb⟩ := ih hp
      exact ⟨b, hab, PathN.snoc hb he⟩

theorem pathN_target {E : EdgeList} {c x : String} {n : Nat}
    (h : PathN E c x n) : x = c ∨ x ∈ E.map Prod.snd := by
  cases h with
  | refl => exact Or.inl rfl
  | snoc hp he => exact Or.inr (List.mem_map.2 ⟨_, he, rfl⟩)

/-- Reachability from a set of start nodes. -/
def ReachL (E : EdgeList) (cs : List String) (x : String) : Prop :=
  ∃ c, c ∈ cs ∧ ∃ n, PathN E c x n

theorem reachL_of_children {E : EdgeList} {c x : String} {cs : List String}
    (hc : c ∈ cs) (h : ReachL E (childrenOf E c) x) : ReachL E cs x := by
  obtain ⟨c1, hc1, n, hp⟩ := h
  exact ⟨c, hc, n + 1, PathN.cons ((mem_childrenOf E c c1).1 hc1) hp⟩

theorem pathN_tail {E : EdgeList} {a c : String} {n : Nat}
    (h : PathN E a c (n + 1)) : ∃ b, PathN E a b n ∧ (b, c) ∈ E := by
  cases h with
  | snoc hp he => exact ⟨_, hp, he⟩

/-- A node with no incoming edge lies on no cycle. -/
theorem noIncoming_noCycle {E : EdgeList} {r : String}
    (h : ∀ y, (y, r) ∉ E) {k : Nat} : ¬ PathN E r r (k + 1) := by
  intro hc
  obtain ⟨y, _, hy⟩ := pathN_tail hc
  exact h y hy

/-- With distinct edge targets, nothing reachable from a node that has no
incoming edge lies on a cycle. -/
theorem noCycleReach {E : EdgeList} (HT : (E.map Prod.snd).Nodup) {r : String}
    (hr : ∀ y, (y, r) ∉ E) :
    ∀ n x, PathN E r x n → ∀ k, ¬ PathN E x x (k + 1) := by
  intro n
  induction n with
  | zero =>
    intro x hp k hc
    obtain rfl := pathN_zero hp
    exact noIncoming_noCycle hr hc
  | succ m ih =>
    intro x hp k hc
    obtain ⟨q, hq, hqx⟩ := pathN_tail hp
    obtain ⟨p, hxp, hpx⟩ := pathN_tail hc
    obtain rfl : p = q := unique_incoming E HT hpx hqx
    exact ih p hq k (PathN.cons hqx hxp)

/-- With distinct edge targets and an acyclic parent node, the descendant
sets of two distinct children of that node cannot meet. -/
theorem disjoint_children {E : EdgeList} (HT : (E.map Prod.snd).Nodup)
    {node : String} (hnc : ∀ k, ¬ PathN E node node (k + 1))
    {c1 c2 : String} (h1 : (node, c1) ∈ E) (h2 : (node, c2) ∈ E) :
    ∀ i x j, PathN E c1 x i → PathN E c2 x j → c1 = c2 := by
  intro i
  induction i with
  | zero =>
    intro x j hp1 hp2
    obtain rfl := pathN_zero hp1
    cases j with
    | zero => exact (pathN_zero hp2).symm
    | succ k =>
      obtain ⟨y, hy, hyc1⟩ := pathN_tail hp2
      obtain rfl : y = node := unique_incoming E HT hyc1 h1
      exact absurd (PathN.cons h2 hy) (hnc k)
  | succ i0 ih =>
    intro x j hp1 hp2
    obtain ⟨y1, hy1, hy1x⟩ := pathN_tail hp1
    cases j with
    | zero =>
      obtain rfl := pathN_zero hp2
      obtain rfl : y1 = node := unique_incoming E HT hy1x h2
      exact absurd (PathN.cons h1 hy1) (hnc i0)
    | succ j0 =>
      obtain ⟨y2, hy2, hy2x⟩ := pathN_tail hp2
      obtain rfl : y1 = y2 := unique_incoming E HT hy1x hy2x
      exact ih y1 j0 hy1 hy2

/-- With distinct edge targets, the subtrees hanging below two distinct
roots (nodes without incoming edges) cannot meet. -/
theorem disjoint_roots {E : EdgeList} (HT : (E.map Prod.snd).Nodup)
    {r1 r2 : String} (hr1 : ∀ y, (y, r1) ∉ E) (hr2 : ∀ y, (y, r2) ∉ E)
    (hne : r1 ≠ r2) {c1 c2 : String} (h1 : (r1, c1) ∈ E) (h2 : (r2, c2) ∈ E) :
    ∀ i x j, PathN E c1 x i → PathN E c2 x j → False := by
  intro i
  induction i with
  | zero =>
    intro x j hp1 hp2
    obtain rfl := pathN_zero hp1
    cases j with
    | zero =>
      obtain rfl := pathN_zero hp2
      exact hne (unique_incoming E HT h1 h2)
    | succ k =>
      obtain ⟨y, hy, hyc1⟩ := pathN_tail hp2
      obtain rfl : y = r1 := unique_incoming E HT hyc1 h1
      cases k with
      | zero =>
        obtain rfl := pathN_zero hy
        exact hr1 r2 h2
      | succ k0 =>
        obtain ⟨z, _, hzr1⟩ := pathN_tail hy
        exact hr1 z hzr1
  | succ i0 ih =>
    intro x j hp1 hp2
    obtain ⟨y1, hy1, hy1x⟩ := pathN_tail hp1
    cases j with
    | zero =>
      obtain rfl := pathN_zero hp2
      obtain rfl : y1 = r2 := unique_incoming E HT hy1x h2
      cases i0 with
      | zero =>
        obtain rfl := pathN_zero hy1
        exact hr2 r1 h1
      | succ k0 =>
        obtain ⟨z, _, hzr2⟩ := pathN_tail hy1
        exact hr2 z hzr2
    | succ j0 =>
      obtain ⟨y2, hy2, hy2x⟩ := pathN_tail hp2
      obtain rfl : y1 = y2 := unique_incoming E HT hy1x hy2x
      exact ih y1 j0 hy1 hy2

/-! ### The traversal of assign_levels -/

/-- The child loop only ever writes keys that are edge targets. -/
theorem assignLoop_preserves (E : EdgeList) :
    ∀ fuel cs m level m2, assignLoop E fuel m cs level = some m2 →
      (∀ c, c ∈ cs → c ∈ E.map Prod.snd) →
      ∀ x, x ∉ E.map Prod.snd → getKey m2 x = getKey m x := by
  intro fuel
  induction fuel with
  | zero =>
    intro cs m level m2 h
    simp [assignLoop] at h
  | succ f ih =>
    intro cs m level m2 h hcs x hx
    cases cs with
    | nil =>
      obtain rfl : m = m2 := Option.some.inj h
      rfl
    | cons c rest =>
      have hstep : assignLoop E (f + 1) m (c :: rest) level =
          match assignLoop E f (setKey m c (level + 1)) (childrenOf E c) (level + 1) with
          | none => none
          | some l2 => assignLoop E f l2 rest level := rfl
      rw [hstep] at h
      cases hin : assignLoop E f (setKey m c (level + 1)) (childrenOf E c) (level + 1) with
      | none =>
        rw [hin] at h
        cases h
      | some m1 =>
        rw [hin] at h
        have hc : c ∈ E.map Prod.snd := hcs c (List.mem_cons_self c rest)
        have e3 : getKey m2 x = getKey m1 x :=
          ih rest m1 level m2 h (fun c0 h0 => hcs c0 (List.mem_cons_of_mem c h0)) x hx
        have e1 : getKey m1 x = getKey (setKey m c (level + 1)) x :=
          ih (childrenOf E c) (setKey m c (level + 1)) (level + 1) m1 hin
            (fun c0 h0 => childrenOf_subset_targets E c c0 h0) x hx
        have e2 : getKey (setKey m c (level + 1)) x = getKey m x :=
          getKey_setKey_ne m c x (level + 1) (fun hxc => hx (hxc ▸ hc))

        rw [e3, e1, e2]

/-- The functional specification of the child loop of assign_levels, under
the preconditions that hold when all record ids are distinct: distinct edge
targets, an acyclic and as yet unassigned region reachable from the worklist,
a duplicate-free worklist with pairwise disjoint descendant sets.  Afterwards
the map is unchanged outside the reachable region, and every node x reachable
from a worklist entry c in n steps holds level + 1 + n. -/
theorem assignLoop_spec (E : EdgeList) (HT : (E.map Prod.snd).Nodup) :
    ∀ fuel cs m level m2,
      assignLoop E fuel m cs level = some m2 →
      (∀ x, ReachL E cs x → ∀ k, ¬ PathN E x x (k + 1)) →
      (∀ x, ReachL E cs x → getKey m x = none) →
      cs.Nodup →
      (∀ c1, c1 ∈ cs → ∀ c2, c2 ∈ cs → ∀ x, (∃ i, PathN E c1 x i) →
        (∃ j, PathN E c2 x j) → c1 = c2) →
      (∀ x, ¬ ReachL E cs x → getKey m2 x = getKey m x) ∧
      (∀ c, c ∈ cs → ∀ x n, PathN E c x n → getKey m2 x = some (level + 1 + n)) := by
  intro fuel
  induction fuel with
  | zero =>
    intro cs m level m2 h
    simp [assignLoop] at h
  | succ f ih =>
    intro cs m level m2 h hA hU hN hS
    cases cs with
    | nil =>
      obtain rfl : m = m2 := Option.some.inj h
      refine ⟨fun x _ => rfl, fun c hc => absurd hc (List.not_mem_nil c)⟩
    | cons c rest =>
      have hstep : assignLoop E (f + 1) m (c :: rest) level =
          match assignLoop E f (setKey m c (level + 1)) (childrenOf E c) (level + 1) with
          | none => none
          | some l2 => assignLoop E f l2 rest level := rfl
      rw [hstep] at h
      cases hin : assignLoop E f (setKey m c (level + 1)) (childrenOf E c) (level + 1) with
      | none =>
        rw [hin] at h
        cases h
      | some m1 =>
        rw [hin] at h
        have hcmem : c ∈ c :: rest := List.mem_cons_self c rest
        have hreachc : ReachL E (c :: rest) c := ⟨c, hcmem, 0, PathN.refl c⟩
        have hncycc : ∀ k, ¬ PathN E c c (k + 1) := hA c hreachc
        have hcedge : ∀ c1, c1 ∈ childrenOf E c → (c, c1) ∈ E :=
          fun c1 h1 => (mem_childrenOf E c c1).1 h1
        have hA0 : ∀ x, ReachL E (childrenOf E c) x → ∀ k, ¬ PathN E x x (k + 1) :=
          fun x hx => hA x (reachL_of_children hcmem hx)
        have hU0 : ∀ x, ReachL E (childrenOf E c) x →
            getKey (setKey m c (level + 1)) x = none := by
          intro x hx
          have hxc : x ≠ c := by
            intro hxeq
            subst hxeq
            obtain ⟨c1, hc1, n, hp⟩ := hx
            exact hA x hreachc n (PathN.cons (hcedge c1 hc1) hp)
          rw [getKey_setKey_ne m c x (level + 1) hxc]
          exact hU x (reachL_of_children hcmem hx)
        have hN0 : (childrenOf E c).Nodup := childrenOf_nodup E c HT
        have hS0 : ∀ c1, c1 ∈ childrenOf E c → ∀ c2, c2 ∈ childrenOf E c → ∀ x,
            (∃ i, PathN E c1 x i) → (∃ j, PathN E c2 x j) → c1 = c2 := by
          intro c1 h1 c2 h2 x hi hj
          obtain ⟨i, hpi⟩ := hi
          obtain ⟨j, hpj⟩ := hj
          exact disjoint_children HT hncycc (hcedge c1 h1) (hcedge c2 h2) i x j hpi hpj
        obtain ⟨dP1, dP2⟩ :=
          ih (childrenOf E c) (setKey m c (level + 1)) (level + 1) m1 hin hA0 hU0 hN0 hS0
        have hrestsub : ∀ x, ReachL E rest x → ReachL E (c :: rest) x := by
          intro x hx
          obtain ⟨c2, h2, n, hp⟩ := hx
          exact ⟨c2, List.mem_cons_of_mem c h2, n, hp⟩
        have hAr : ∀ x, ReachL E rest x → ∀ k, ¬ PathN E x x (k + 1) :=
          fun x hx => hA x (hrestsub x hx)
        have hNr : rest.Nodup := (List.nodup_cons.1 hN).2
        have hcnotrest : c ∉ rest := (List.nodup_cons.1 hN).1
        have hSr : ∀ c1, c1 ∈ rest → ∀ c2, c2 ∈ rest → ∀ x,
            (∃ i, PathN E c1 x i) → (∃ j, PathN E c2 x j) → c1 = c2 :=
          fun c1 h1 c2 h2 x hi hj =>
            hS c1 (List.mem_cons_of_mem c h1) c2 (List.mem_cons_of_mem c h2) x hi hj
        have hrest_notc : ∀ x, ReachL E rest x → x ≠ c := by
          intro x hx hxeq
          subst hxeq
          obtain ⟨c2, h2, n, hp⟩ := hx
          have heq : c2 = x :=
            hS c2 (List.mem_cons_of_mem x h2) x hcmem x ⟨n, hp⟩ ⟨0, PathN.refl x⟩
          exact hcnotrest (heq ▸ h2)
        have hrest_notchild : ∀ x, ReachL E rest x → ¬ ReachL E (childrenOf E c) x := by
          intro x hx hx0
          obtain ⟨c2, h2, n, hp⟩ := hx
          obtain ⟨c1, h1, n1, hp1⟩ := hx0
          have heq : c2 = c :=
            hS c2 (List.mem_cons_of_mem c h2) c hcmem x ⟨n, hp⟩
              ⟨n1 + 1, PathN.cons (hcedge c1 h1) hp1⟩
          exact hcnotrest (heq ▸ h2)
        have hUr : ∀ x, ReachL E rest x → getKey m1 x = none := by
          intro x hx
          rw [dP1 x (hrest_notchild x hx),
            getKey_setKey_ne m c x (level + 1) (hrest_notc x hx)]
          exact hU x (hrestsub x hx)
        obtain ⟨rP1, rP2⟩ := ih rest m1 level m2 h hAr hUr hNr hSr
        constructor
        · intro x hnr
          have hnr_rest : ¬ ReachL E rest x := fun hx => hnr (hrestsub x hx)
          have hnr_child : ¬ ReachL E (childrenOf E c) x :=
            fun hx => hnr (reachL_of_children hcmem hx)
          have hxc : x ≠ c := fun hxeq => hnr (hxeq ▸ hreachc)
          rw [rP1 x hnr_rest, dP1 x hnr_child,
            getKey_setKey_ne m c x (level + 1) hxc]
        · intro c0 hc0 x n hp
          cases List.mem_cons.1 hc0 with
          | inl hceq =>
            subst hceq
            cases n with
            | zero =>
              obtain rfl := pathN_zero hp
              have hnotchild : ¬ ReachL E (childrenOf E c0) c0 := by
                intro hx
                obtain ⟨c1, h1, n1, hp1⟩ := hx
                exact hncycc n1 (PathN.cons (hcedge c1 h1) hp1)
              have hm1 : getKey m1 c0 = some (level + 1) := by
                rw [dP1 c0 hnotchild, getKey_setKey_self]
              have hnotrest : ¬ ReachL E rest c0 :=
                fun hx => (hrest_notc c0 hx) rfl
              rw [rP1 c0 hnotrest, hm1]
            | succ k =>
              obtain ⟨c1, hcc1, hp1⟩ := pathN_head hp
              have hc1mem : c1 ∈ childrenOf E c0 := (mem_childrenOf E c0 c1).2 hcc1
              have hm1 : getKey m1 x = some (level + 1 + 1 + k) := dP2 c1 hc1mem x k hp1
              have hxnotrest : ¬ ReachL E rest x := by
                intro hx
                exact hrest_notchild x hx ⟨c1, hc1mem, k, hp1⟩
              rw [rP1 x hxnotrest, hm1]
              exact congrArg some (by omega)
          | inr hc0rest =>
            exact rP2 c0 hc0rest x n hp

/-- The functional specification of the root loop of determine_levels,
under distinct edge targets, roots without incoming edges and unassigned
root subtrees: afterwards the map is unchanged outside the union of the
root subtrees, and every node x that lies n steps below a child of a root
holds n + 1. -/
theorem runRoots_spec (E : EdgeList) (HT : (E.map Prod.snd).Nodup) (fuel : Nat) :
    ∀ R m m2, runRoots E fuel m R = some m2 →
      (∀ r, r ∈ R → ∀ y, (y, r) ∉ E) →
      (∀ r, r ∈ R → ∀ c, (r, c) ∈ E → ∀ x n, PathN E c x n → getKey m x = none) →
      R.Nodup →
      (∀ x, (∀ r, r ∈ R → ∀ c, (r, c) ∈ E → ∀ n, ¬ PathN E c x n) →
        getKey m2 x = getKey m x) ∧
      (∀ r, r ∈ R → ∀ c, (r, c) ∈ E → ∀ x n, PathN E c x n →
        getKey m2 x = some (n + 1)) := by
  intro R
  induction R with
  | nil =>
    intro m m2 h _ _ _
    obtain rfl : m = m2 := Option.some.inj h
    exact ⟨fun x _ => rfl, fun r hr => absurd hr (List.not_mem_nil r)⟩
  | cons r rest ih =>
    intro m m2 h hroots hun hnd
    have hstep : runRoots E fuel m (r :: rest) =
        match assign_levels E fuel m r 0 with
        | none => none
        | some l2 => runRoots E fuel l2 rest := rfl
    rw [hstep] at h
    cases hin : assign_levels E fuel m r 0 with
    | none =>
      rw [hin] at h
      cases h
    | some m1 =>
      rw [hin] at h
      have hin2 : assignLoop E fuel m (childrenOf E r) 0 = some m1 := hin
      have hrmem : r ∈ r :: rest := List.mem_cons_self r rest
      have hrin : ∀ y, (y, r) ∉ E := hroots r hrmem
      have hA : ∀ x, ReachL E (childrenOf E r) x → ∀ k, ¬ PathN E x x (k + 1) := by
        intro x hx k
        obtain ⟨c, hc, n, hp⟩ := hx
        have hrc : (r, c) ∈ E := (mem_childrenOf E r c).1 hc
        exact noCycleReach HT hrin (n + 1) x (PathN.cons hrc hp) k
      have hU : ∀ x, ReachL E (childrenOf E r) x → getKey m x = none := by
        intro x hx
        obtain ⟨c, hc, n, hp⟩ := hx
        exact hun r hrmem c ((mem_childrenOf E r c).1 hc) x n hp
      have hN := childrenOf_nodup E r HT
      have hrnc : ∀ k, ¬ PathN E r r (k + 1) := fun k => noIncoming_noCycle hrin
      have hS : ∀ c1, c1 ∈ childrenOf E r → ∀ c2, c2 ∈ childrenOf E r → ∀ x,
          (∃ i, PathN E c1 x i) → (∃ j, PathN E c2 x j) → c1 = c2 := by
        intro c1 h1 c2 h2 x hi hj
        obtain ⟨i, hpi⟩ := hi
        obtain ⟨j, hpj⟩ := hj
        exact disjoint_children HT hrnc ((mem_childrenOf E r c1).1 h1)
          ((mem_childrenOf E r c2).1 h2) i x j hpi hpj
      obtain ⟨aP1, aP2⟩ :=
        assignLoop_spec E HT fuel (childrenOf E r) m 0 m1 hin2 hA hU hN hS
      have hrootsr : ∀ r2, r2 ∈ rest → ∀ y, (y, r2) ∉ E :=
        fun r2 h2 => hroots r2 (List.mem_cons_of_mem r h2)
      have hndr : rest.Nodup := (List.nodup_cons.1 hnd).2
      have hrnotrest : r ∉ rest := (List.nodup_cons.1 hnd).1
      have hdisj : ∀ r2, r2 ∈ rest → ∀ c2, (r2, c2) ∈ E → ∀ x n, PathN E c2 x n →
          ¬ ReachL E (childrenOf E r) x := by
        intro r2 h2 c2 hc2 x n hp hx
        obtain ⟨c1, hc1, n1, hp1⟩ := hx
        have hr2ne : r ≠ r2 := fun he => hrnotrest (he ▸ h2)
        exact disjoint_roots HT hrin (hrootsr r2 h2) hr2ne
          ((mem_childrenOf E r c1).1 hc1) hc2 n1 x n hp1 hp
      have hunr : ∀ r2, r2 ∈ rest → ∀ c2, (r2, c2) ∈ E → ∀ x n, PathN E c2 x n →
          getKey m1 x = none := by
        intro r2 h2 c2 hc2 x n hp
        rw [aP1 x (hdisj r2 h2 c2 hc2 x n hp)]
        exact hun r2 (List.mem_cons_of_mem r h2) c2 hc2 x n hp
      obtain ⟨rP1, rP2⟩ := ih m1 m2 h hrootsr hunr hndr
      constructor
      · intro x hnr
        have h1 : ∀ r2, r2 ∈ rest → ∀ c2, (r2, c2) ∈ E → ∀ n, ¬ PathN E c2 x n :=
          fun r2 h2 c2 hc2 n => hnr r2 (List.mem_cons_of_mem r h2) c2 hc2 n
        have h2 : ¬ ReachL E (childrenOf E r) x := by
          intro hx
          obtain ⟨c, hc, n, hp⟩ := hx
          exact hnr r hrmem c ((mem_childrenOf E r c).1 hc) n hp
        rw [rP1 x h1, aP1 x h2]
      · intro r0 hr0 c0 hc0 x n hp
        cases List.mem_cons.1 hr0 with
        | inl hreq =>
          subst hreq
          have hcmem : c0 ∈ childrenOf E r0 := (mem_childrenOf E r0 c0).2 hc0
          have hm1 : getKey m1 x = some (0 + 1 + n) := aP2 c0 hcmem x n hp
          have hnr : ∀ r2, r2 ∈ rest → ∀ c2, (r2, c2) ∈ E → ∀ k, ¬ PathN E c2 x k :=
            fun r2 h2 c2 hc2 k hp2 => hdisj r2 h2 c2 hc2 x k hp2 ⟨c0, hcmem, n, hp⟩
          rw [rP1 x hnr, hm1]
          exact congrArg some (by omega)
        | inr hr0rest =>
          exact rP2 r0 hr0rest c0 hc0 x n hp

/-! ### The build phase of determine_levels -/

theorem buildMapsAux_edges (ts : List Territory) :
    ∀ ls es, (buildMapsAux ls es ts).2 = es ++
      ts.filterMap (fun t => (truthyParent t.ParentTerritory2Id).map (fun p => (p, t.Id))) := by
  induction ts with
  | nil =>
    intro ls es
    simp [buildMapsAux]
  | cons t rest ih =>
    intro ls es
    cases hp : truthyParent t.ParentTerritory2Id with
    | none => simp [buildMapsAux, hp, ih, List.filterMap_cons]
    | some p => simp [buildMapsAux, hp, ih, List.filterMap_cons]

theorem buildMaps_edges (ts : List Territory) :
    (buildMaps ts).2 =
      ts.filterMap (fun t => (truthyParent t.ParentTerritory2Id).map (fun p => (p, t.Id))) := by
  simpa using buildMapsAux_edges ts [] []

theorem buildMapsAux_levels_some (ts : List Territory) :
    ∀ ls es x v, getKey (buildMapsAux ls es ts).1 x = some v →
      getKey ls x = some v ∨
        (v = 0 ∧ ∃ t, t ∈ ts ∧ truthyParent t.ParentTerritory2Id = none ∧ t.Id = x) := by
  induction ts with
  | nil =>
    intro ls es x v h
    exact Or.inl h
  | cons t rest ih =>
    intro ls es x v h
    cases hp : truthyParent t.ParentTerritory2Id with
    | some p =>
      rw [show buildMapsAux ls es (t :: rest) = buildMapsAux ls (es ++ [(p, t.Id)]) rest
        from by simp [buildMapsAux, hp]] at h
      rcases ih _ _ x v h with h1 | ⟨hv, u, hu, hun, hux⟩
      · exact Or.inl h1
      · exact Or.inr ⟨hv, u, List.mem_cons_of_mem t hu, hun, hux⟩
    | none =>
      rw [show buildMapsAux ls es (t :: rest) = buildMapsAux (setKey ls t.Id 0) es rest
        from by simp [buildMapsAux, hp]] at h
      rcases ih _ _ x v h with h1 | ⟨hv, u, hu, hun, hux⟩
      · by_cases hx : x = t.Id
        · subst hx
          rw [getKey_setKey_self] at h1
          have hv : v = 0 := (Option.some.inj h1).symm
          exact Or.inr ⟨hv, t, List.mem_cons_self t rest, hp, rfl⟩
        · rw [getKey_setKey_ne ls t.Id x 0 hx] at h1
          exact Or.inl h1
      · exact Or.inr ⟨hv, u, List.mem_cons_of_mem t hu, hun, hux⟩

theorem buildMapsAux_levels_zero_stable (ts : List Territory) :
    ∀ ls es x, getKey ls x = some 0 →
      getKey (buildMapsAux ls es ts).1 x = some 0 := by
  induction ts with
  | nil =>
    intro ls es x h
    exact h
  | cons t rest ih =>
    intro ls es x h
    cases hp : truthyParent t.ParentTerritory2Id with
    | some p =>
      rw [show buildMapsAux ls es (t :: rest) = buildMapsAux ls (es ++ [(p, t.Id)]) rest
        from by simp [buildMapsAux, hp]]
      exact ih _ _ x h
    | none =>
      rw [show buildMapsAux ls es (t :: rest) = buildMapsAux (setKey ls t.Id 0) es rest
        from by simp [buildMapsAux, hp]]
      by_cases hx : x = t.Id
      · subst hx
        exact ih _ _ t.Id (getKey_setKey_self ls t.Id 0)
      · exact ih _ _ x (by rw [getKey_setKey_ne ls t.Id x 0 hx]; exact h)

theorem buildMapsAux_levels_root (ts : List Territory) :
    ∀ ls es t, t ∈ ts → truthyParent t.ParentTerritory2Id = none →
      getKey (buildMapsAux ls es ts).1 t.Id = some 0 := by
  induction ts with
  | nil =>
    intro ls es t ht
    exact absurd ht (List.not_mem_nil t)
  | cons u rest ih =>
    intro ls es t ht hroot
    cases List.mem_cons.1 ht with
    | inl hteq =>
      subst hteq
      rw [show buildMapsAux ls es (t :: rest) = buildMapsAux (setKey ls t.Id 0) es rest
        from by simp [buildMapsAux, hroot]]
      exact buildMapsAux_levels_zero_stable rest _ _ t.Id (getKey_setKey_self ls t.Id 0)
    | inr htrest =>
      cases hp : truthyParent u.ParentTerritory2Id with
      | some p =>
        rw [show buildMapsAux ls es (u :: rest) = buildMapsAux ls (es ++ [(p, u.Id)]) rest
          from by simp [buildMapsAux, hp]]
        exact ih _ _ t htrest hroot
      | none =>
        rw [show buildMapsAux ls es (u :: rest) = buildMapsAux (setKey ls u.Id 0) es rest
          from by simp [buildMapsAux, hp]]
        exact ih _ _ t htrest hroot

theorem buildMapsAux_keys_nodup (ts : List Territory) :
    ∀ ls es, (ls.map Prod.fst).Nodup →
      ((buildMapsAux ls es ts).1.map Prod.fst).Nodup := by
  induction ts with
  | nil =>
    intro ls es h
    exact h
  | cons t rest ih =>
    intro ls es h
    cases hp : truthyParent t.ParentTerritory2Id with
    | some p =>
      rw [show buildMapsAux ls es (t :: rest) = buildMapsAux ls (es ++ [(p, t.Id)]) rest
        from by simp [buildMapsAux, hp]]
      exact ih _ _ h
    | none =>
      rw [show buildMapsAux ls es (t :: rest) = buildMapsAux (setKey ls t.Id 0) es rest
        from by simp [buildMapsAux, hp]]
      exact ih _ _ (setKey_keys_nodup ls t.Id 0 h)

theorem buildMaps_keys_nodup (ts : List Territory) :
    (((buildMaps ts).1).map Prod.fst).Nodup :=
  buildMapsAux_keys_nodup ts [] [] (by simp)

theorem buildMaps_targets (ts : List Territory) :
    (buildMaps ts).2.map Prod.snd =
      (ts.filter (fun t => (truthyParent t.ParentTerritory2Id).isSome)).map Territory.Id := by
  rw [buildMaps_edges]
  induction ts with
  | nil => simp
  | cons t rest ih =>
    cases hp : truthyParent t.ParentTerritory2Id with
    | none => simp [List.filterMap_cons, List.filter_cons, hp, ih]
    | some p => simp [List.filterMap_cons, List.filter_cons, hp, ih]

theorem mem_targets_iff (ts : List Territory) (x : String) :
    x ∈ (buildMaps ts).2.map Prod.snd ↔
      ∃ t, t ∈ ts ∧ (truthyParent t.ParentTerritory2Id).isSome ∧ t.Id = x := by
  rw [buildMaps_targets]
  simp only [List.mem_map, List.mem_filter]
  constructor
  · intro h
    obtain ⟨t, ⟨ht, htr⟩, hid⟩ := h
    exact ⟨t, ht, htr, hid⟩
  · intro h
    obtain ⟨t, ht, htr, hid⟩ := h
    exact ⟨t, ⟨ht, htr⟩, hid⟩

theorem edge_mem (ts : List Territory) (t : Territory) (p : String)
    (ht : t ∈ ts) (hp : truthyParent t.ParentTerritory2Id = some p) :
    (p, t.Id) ∈ (buildMaps ts).2 := by
  rw [buildMaps_edges]
  exact List.mem_filterMap.2 ⟨t, ht, by simp [hp]⟩

theorem mem_edge (ts : List Territory) (p c : String)
    (h : (p, c) ∈ (buildMaps ts).2) :
    ∃ t, t ∈ ts ∧ truthyParent t.ParentTerritory2Id = some p ∧ t.Id = c := by
  rw [buildMaps_edges] at h
  obtain ⟨t, ht, hf⟩ := List.mem_filterMap.1 h
  cases hq : truthyParent t.ParentTerritory2Id with
  | none =>
    rw [hq] at hf
    cases hf
  | some q =>
    rw [hq] at hf
    have hqc := Option.some.inj hf
    have hq1 : q = p := congrArg Prod.fst hqc
    have hq2 : t.Id = c := congrArg Prod.snd hqc
    exact ⟨t, ht, hq1 ▸ hq, hq2⟩

/-- Under distinct ids, the edge targets of the children index are
pairwise distinct. -/
theorem targets_nodup (ts : List Territory) (HI : (ts.map Territory.Id).Nodup) :
    ((buildMaps ts).2.map Prod.snd).Nodup := by
  rw [buildMaps_targets]
  exact List.Nodup.sublist (List.Sublist.map Territory.Id (List.filter_sublist ts)) HI

/-- Under distinct ids, a root id (a key of the initial level map) has no
incoming edge in the children index. -/
theorem roots_no_incoming (ts : List Territory) (HI : (ts.map Territory.Id).Nodup)
    (r : String) (hr : r ∈ ((buildMaps ts).1).map Prod.fst) :
    ∀ y, (y, r) ∉ (buildMaps ts).2 := by
  intro y hy
  have hsome : (getKey (buildMaps ts).1 r).isSome := (getKey_isSome_iff _ r).2 hr
  obtain ⟨v, hv⟩ := Option.isSome_iff_exists.1 hsome
  rcases buildMapsAux_levels_some ts [] [] r v hv with h1 | ⟨_, t, ht, htn, hti⟩
  · cases h1
  · obtain ⟨u, hu, hups, hui⟩ := mem_edge ts y r hy
    have huid : u.Id = t.Id := by rw [hui, hti]
    have : u = t := List.inj_on_of_nodup_map HI hu ht huid
    rw [this, htn] at hups
    cases hups

/-- Under distinct ids, nothing below a root's child carries an initial
level entry. -/
theorem root_subtrees_unassigned (ts : List Territory)
    (HI : (ts.map Territory.Id).Nodup) :
    ∀ r, r ∈ ((buildMaps ts).1).map Prod.fst →
      ∀ c, (r, c) ∈ (buildMaps ts).2 →
        ∀ x n, PathN (buildMaps ts).2 c x n → getKey (buildMaps ts).1 x = none := by
  intro r _ c hc x n hp
  have hxtarget : x ∈ (buildMaps ts).2.map Prod.snd := by
    rcases pathN_target hp with hxc | hx
    · subst hxc
      exact List.mem_map.2 ⟨(r, x), hc, rfl⟩
    · exact hx
  obtain ⟨u, hu, hutr, hui⟩ := (mem_targets_iff ts x).1 hxtarget
  cases hg : getKey (buildMaps ts).1 x with
  | none => rfl
  | some v =>
    rcases buildMapsAux_levels_some ts [] [] x v hg with h1 | ⟨_, t, ht, htn, hti⟩
    · cases h1
    · have huid : u.Id = t.Id := by rw [hui, hti]
      have : u = t := List.inj_on_of_nodup_map HI hu ht huid
      rw [this, htn] at hutr
      cases hutr

/-- The two posts of runRoots_spec, transported to determine_levels, for
an input with pairwise distinct ids. -/
theorem determine_levels_spec (ts : List Territory)
    (HI : (ts.map Territory.Id).Nodup) (fuel : Nat) (final : Levels)
    (h : determine_levels fuel ts = some final) :
    (∀ x, (∀ r, r ∈ ((buildMaps ts).1).map Prod.fst →
        ∀ c, (r, c) ∈ (buildMaps ts).2 → ∀ n, ¬ PathN (buildMaps ts).2 c x n) →
      getKey final x = getKey (buildMaps ts).1 x) ∧
    (∀ r, r ∈ ((buildMaps ts).1).map Prod.fst →
      ∀ c, (r, c) ∈ (buildMaps ts).2 → ∀ x n, PathN (buildMaps ts).2 c x n →
        getKey final x = some (n + 1)) := by
  have h2 : runRoots (buildMaps ts).2 fuel (buildMaps ts).1
      (((buildMaps ts).1).map Prod.fst) = some final := h
  exact runRoots_spec (buildMaps ts).2 (targets_nodup ts HI) fuel
    (((buildMaps ts).1).map Prod.fst) (buildMaps ts).1 final h2
    (roots_no_incoming ts HI) (root_subtrees_unassigned ts HI)
    (buildMaps_keys_nodup ts)

/-- The root loop only ever writes keys that are edge targets. -/
theorem runRoots_preserves (E : EdgeList) (fuel : Nat) :
    ∀ R m m2, runRoots E fuel m R = some m2 →
      ∀ x, x ∉ E.map Prod.snd → getKey m2 x = getKey m x := by
  intro R
  induction R with
  | nil =>
    intro m m2 h x _
    obtain rfl : m = m2 := Option.some.inj h
    rfl
  | cons r rest ih =>
    intro m m2 h x hx
    have hstep : runRoots E fuel m (r :: rest) =
        match assign_levels E fuel m r 0 with
        | none => none
        | some l2 => runRoots E fuel l2 rest := rfl
    rw [hstep] at h
    cases hin : assign_levels E fuel m r 0 with
    | none =>
      rw [hin] at h
      cases h
    | some m1 =>
      rw [hin] at h
      have e1 : getKey m2 x = getKey m1 x := ih m1 m2 h x hx
      have e2 : getKey m1 x = getKey m x :=
        assignLoop_preserves E fuel (childrenOf E r) m 0 m1 hin
          (fun c0 h0 => childrenOf_subset_targets E r c0 h0) x hx
      rw [e1, e2]

/-- determine_levels leaves every id that is not an edge target at its
initial value (some 0 for a falsy-parent record id, none otherwise). -/
theorem determine_levels_nontarget (ts : List Territory) (fuel : Nat)
    (final : Levels) (h : determine_levels fuel ts = some final)
    (x : String) (hx : x ∉ (buildMaps ts).2.map Prod.snd) :
    getKey final x = getKey (buildMaps ts).1 x := by
  have h2 : runRoots (buildMaps ts).2 fuel (buildMaps ts).1
      (((buildMaps ts).1).map Prod.fst) = some final := h
  exact runRoots_preserves (buildMaps ts).2 fuel (((buildMaps ts).1).map Prod.fst)
    (buildMaps ts).1 final h2 x hx

/-! ### create_graph characterization -/

theorem create_graphAux_spec (levels : Levels) :
    ∀ ts r, create_graphAux levels ts = some r →
      r.1 = ts.map (fun t => (t.Id, t.Name)) ∧
      r.2.map (fun e => (e.1, e.2.1)) =
        ts.filterMap (fun t => (truthyParent t.ParentTerritory2Id).map (fun p => (p, t.Id))) ∧
      ∀ t, t ∈ ts → ∀ p, truthyParent t.ParentTerritory2Id = some p →
        ∀ L, getKey levels t.Id = some L → (p, t.Id, colorFor L) ∈ r.2 := by
  intro ts
  induction ts with
  | nil =>
    intro r h
    obtain rfl : (([], []) : List (String × String) × List (String × String × String)) = r :=
      Option.some.inj h
    refine ⟨rfl, rfl, ?_⟩
    intro t ht
    exact absurd ht (List.not_mem_nil t)
  | cons t rest ih =>
    intro r h
    cases hp : truthyParent t.ParentTerritory2Id with
    | none =>
      rw [show create_graphAux levels (t :: rest) =
          match create_graphAux levels rest with
          | none => none
          | some (ns, es) => some ((t.Id, t.Name) :: ns, es)
        from by simp [create_graphAux, hp]] at h
      cases hin : create_graphAux levels rest with
      | none =>
        rw [hin] at h
        cases h
      | some r0 =>
        obtain ⟨ns0, es0⟩ := r0
        rw [hin] at h
        obtain rfl : ((t.Id, t.Name) :: ns0, es0) = r := Option.some.inj h
        obtain ⟨ihn, ihe, ihm⟩ := ih (ns0, es0) hin
        refine ⟨?_, ?_, ?_⟩
        · simpa using ihn
        · simpa [List.filterMap_cons, hp] using ihe
        · intro t0 ht0 p0 ht0p L0 hL0
          cases List.mem_cons.1 ht0 with
          | inl hteq =>
            subst hteq
            rw [hp] at ht0p
            cases ht0p
          | inr htrest =>
            exact ihm t0 htrest p0 ht0p L0 hL0
    | some p =>
      rw [show create_graphAux levels (t :: rest) =
          match getKey levels t.Id with
          | none => none
          | some level =>
            match create_graphAux levels rest with
            | none => none
            | some (ns, es) =>
              some ((t.Id, t.Name) :: ns, (p, t.Id, colorFor level) :: es)
        from by simp [create_graphAux, hp]] at h
      cases hL : getKey levels t.Id with
      | none =>
        rw [hL] at h
        cases h
      | some L =>
        rw [hL] at h
        cases hin : create_graphAux levels rest with
        | none =>
          rw [hin] at h
          cases h
        | some r0 =>
          obtain ⟨ns0, es0⟩ := r0
          rw [hin] at h
          obtain rfl : ((t.Id, t.Name) :: ns0, (p, t.Id, colorFor L) :: es0) = r :=
            Option.some.inj h
          obtain ⟨ihn, ihe, ihm⟩ := ih (ns0, es0) hin
          refine ⟨?_, ?_, ?_⟩
          · simpa using ihn
          · simpa [List.filterMap_cons, hp] using ihe
          · intro t0 ht0 p0 ht0p L0 hL0
            cases List.mem_cons.1 ht0 with
            | inl hteq =>
              subst hteq
              rw [hp] at ht0p
              obtain rfl : p = p0 := Option.some.inj ht0p
              rw [hL] at hL0
              obtain rfl : L = L0 := Option.some.inj hL0
              exact List.mem_cons_self _ _
            | inr htrest =>
              exact List.mem_cons_of_mem _ (ihm t0 htrest p0 ht0p L0 hL0)

theorem create_graph_spec (ts : List Territory) (levels : Levels)
    (g : GraphDescription) (h : create_graph ts levels = some g) :
    g.nodes = ts.map (fun t => (t.Id, t.Name)) ∧
    g.edges.map (fun e => (e.1, e.2.1)) =
      ts.filterMap (fun t => (truthyParent t.ParentTerritory2Id).map (fun p => (p, t.Id))) ∧
    ∀ t, t ∈ ts → ∀ p, truthyParent t.ParentTerritory2Id = some p →
      ∀ L, getKey levels t.Id = some L → (p, t.Id, colorFor L) ∈ g.edges := by
  rw [show create_graph ts levels =
      match create_graphAux levels ts with
      | none => none
      | some (ns, es) => some { nodes := ns, edges := es }
    from rfl] at h
  cases hin : create_graphAux levels ts with
  | none =>
    rw [hin] at h
    cases h
  | some r0 =>
    obtain ⟨ns0, es0⟩ := r0
    rw [hin] at h
    obtain rfl : ({ nodes := ns0, edges := es0 } : GraphDescription) = g :=
      Option.some.inj h
    exact create_graphAux_spec levels ts (ns0, es0) hin

/-! ### Shared claim-level helpers -/

/-- A falsy-parent record whose id is borne by no truthy-parent record keeps
its initial level 0 through the whole of determine_levels. -/
theorem root_id_level_zero (ts : List Territory) (fuel : Nat) (final : Levels)
    (h : determine_levels fuel ts = some final) (t : Territory) (ht : t ∈ ts)
    (hroot : truthyParent t.ParentTerritory2Id = none)
    (hsole : ∀ u, u ∈ ts → u.Id = t.Id → truthyParent u.ParentTerritory2Id = none) :
    getKey final t.Id = some 0 := by
  have hx : t.Id ∉ (buildMaps ts).2.map Prod.snd := by
    intro hmem
    obtain ⟨u, hu, hutr, hui⟩ := (mem_targets_iff ts t.Id).1 hmem
    rw [hsole u hu hui] at hutr
    cases hutr
  rw [determine_levels_nontarget ts fuel final h t.Id hx]
  exact buildMapsAux_levels_root ts [] [] t ht hroot

/-! ### The claims -/

/-- Auxiliary divergence fact for the C1 failing input: on the cyclic
children index A -> B -> A the child loop exhausts every finite fuel. -/
theorem assignLoop_cycleAB : ∀ fuel (m : Levels) (level : Nat),
    assignLoop [("A", "B"), ("B", "A")] fuel m ["B"] level = none ∧
    assignLoop [("A", "B"), ("B", "A")] fuel m ["A"] level = none := by
  intro fuel
  induction fuel with
  | zero => intro m level; exact ⟨rfl, rfl⟩
  | succ f ih =>
    intro m level
    constructor
    · have hstep : assignLoop [("A", "B"), ("B", "A")] (f + 1) m ["B"] level =
          match assignLoop [("A", "B"), ("B", "A")] f (setKey m "B" (level + 1))
              (childrenOf [("A", "B"), ("B", "A")] "B") (level + 1) with
          | none => none
          | some l2 => assignLoop [("A", "B"), ("B", "A")] f l2 [] level := rfl
      have hc : childrenOf [("A", "B"), ("B", "A")] "B" = ["A"] := rfl
      rw [hstep, hc, (ih _ _).2]
    · have hstep : assignLoop [("A", "B"), ("B", "A")] (f + 1) m ["A"] level =
          match assignLoop [("A", "B"), ("B", "A")] f (setKey m "A" (level + 1))
              (childrenOf [("A", "B"), ("B", "A")] "A") (level + 1) with
          | none => none
          | some l2 => assignLoop [("A", "B"), ("B", "A")] f l2 [] level := rfl
      have hc : childrenOf [("A", "B"), ("B", "A")] "A" = ["B"] := rfl
      rw [hstep, hc, (ih _ _).1]

/-- C1: the level-assignment operation is NOT total over every finite input.
On the duplicate-id input [A root, B child of A, A child of B] the children
index contains the cycle A -> B -> A reachable from the root A, and the
recursion of assign_levels never completes: for every fuel bound the
embedded run reports exhaustion, i.e. the source recursion diverges (in
Python, a RecursionError is raised). -/
theorem c1_nontermination : ∀ fuel,
    determine_levels fuel
      [⟨"A", "A1", none⟩, ⟨"B", "B1", some "A"⟩, ⟨"A", "A2", some "B"⟩] = none := by
  intro fuel
  have hstep : determine_levels fuel
      [⟨"A", "A1", none⟩, ⟨"B", "B1", some "A"⟩, ⟨"A", "A2", some "B"⟩] =
      match assign_levels [("A", "B"), ("B", "A")] fuel [("A", 0)] "A" 0 with
      | none => none
      | some l2 => runRoots [("A", "B"), ("B", "A")] fuel l2 [] := rfl
  have h1 : assign_levels [("A", "B"), ("B", "A")] fuel [("A", 0)] "A" 0 = none := by
    have hc : childrenOf [("A", "B"), ("B", "A")] "A" = ["B"] := rfl
    show assignLoop [("A", "B"), ("B", "A")] fuel [("A", 0)]
      (childrenOf [("A", "B"), ("B", "A")] "A") 0 = none
    rw [hc]
    exact (assignLoop_cycleAB fuel [("A", 0)] 0).1
  rw [hstep, h1]

/-- C2: on the self-parent record, determine_levels returns the empty level
map, and create_graph then fails on the missing level entry (the KeyError of
the source, modelled as none) instead of applying a fallback color. -/
theorem c2_missing_level_fails :
    determine_levels 100 [⟨"A", "A", some "A"⟩] = some [] ∧
    create_graph [⟨"A", "A", some "A"⟩] [] = none :=
  ⟨rfl, rfl⟩

/-- C3 counterexample: in this duplicate-id input the first record has a
null parent, yet its id A ends at level 1, because the third record (same id
A, parent B) makes A a child of the root B. -/
theorem c3_counterexample :
    determine_levels 100 [⟨"A", "A1", none⟩, ⟨"B", "B1", none⟩, ⟨"A", "A2", some "B"⟩] =
      some [("A", 1), ("B", 0)] ∧
    getKey [("A", 1), ("B", 0)] "A" = some 1 :=
  ⟨rfl, rfl⟩

/-- C3 (amended): a record with a null/absent parent field is assigned level
0 by determine_levels, provided no record with a truthy parent bears the
same id. -/
theorem c3_root_level_zero (ts : List Territory) (fuel : Nat) (final : Levels)
    (h : determine_levels fuel ts = some final) (t : Territory) (ht : t ∈ ts)
    (hroot : truthyParent t.ParentTerritory2Id = none)
    (hsole : ∀ u, u ∈ ts → u.Id = t.Id → truthyParent u.ParentTerritory2Id = none) :
    getKey final t.Id = some 0 :=
  root_id_level_zero ts fuel final h t ht hroot hsole

theorem c3_root_level_zero_witness : getKey [("A", 0)] "A" = some 0 :=
  c3_root_level_zero [⟨"A", "Root", none⟩] 1 [("A", 0)] rfl ⟨"A", "Root", none⟩
    (by decide) rfl (by decide)

/-- C4 counterexample: in this duplicate-id input the fourth record has
parent P2; P2 is assigned level 1 in the final map, yet the record's id X is
assigned level 1 rather than 2, because the traversal last reaches X through
the other association (X as a direct child of the root R). -/
theorem c4_counterexample :
    determine_levels 100 [⟨"R", "R", none⟩, ⟨"P2", "P2", some "R"⟩,
        ⟨"X", "X1", some "R"⟩, ⟨"X", "X2", some "P2"⟩] =
      some [("R", 0), ("P2", 1), ("X", 1)] ∧
    getKey [("R", 0), ("P2", 1), ("X", 1)] "P2" = some 1 ∧
    getKey [("R", 0), ("P2", 1), ("X", 1)] "X" = some 1 :=
  ⟨rfl, rfl, rfl⟩

/-- C4 (amended): for an input whose record ids are pairwise distinct,
whenever determine_levels completes, every record whose parent is assigned
level L in the result is itself assigned level L + 1. -/
theorem c4_child_level (ts : List Territory) (HI : (ts.map Territory.Id).Nodup)
    (fuel : Nat) (final : Levels) (h : determine_levels fuel ts = some final)
    (t : Territory) (ht : t ∈ ts) (p : String)
    (hp : truthyParent t.ParentTerritory2Id = some p)
    (L : Nat) (hL : getKey final p = some L) :
    getKey final t.Id = some (L + 1) := by
  obtain ⟨P1, P2⟩ := determine_levels_spec ts HI fuel final h
  have hedge : (p, t.Id) ∈ (buildMaps ts).2 := edge_mem ts t p ht hp
  by_cases hreach : ∃ r, r ∈ ((buildMaps ts).1).map Prod.fst ∧
      ∃ c, (r, c) ∈ (buildMaps ts).2 ∧ ∃ n, PathN (buildMaps ts).2 c p n
  · obtain ⟨r, hr, c, hc, n, hpn⟩ := hreach
    have hLp : getKey final p = some (n + 1) := P2 r hr c hc p n hpn
    rw [hL] at hLp
    obtain rfl : L = n + 1 := Option.some.inj hLp
    exact P2 r hr c hc t.Id (n + 1) (PathN.snoc hpn hedge)
  · have hnp : ∀ r, r ∈ ((buildMaps ts).1).map Prod.fst →
        ∀ c, (r, c) ∈ (buildMaps ts).2 → ∀ n, ¬ PathN (buildMaps ts).2 c p n :=
      fun r hr c hc n hpn => hreach ⟨r, hr, c, hc, n, hpn⟩
    have hfp : getKey (buildMaps ts).1 p = some L := by
      rw [← P1 p hnp]
      exact hL
    rcases buildMapsAux_levels_some ts [] [] p L hfp with h1 | ⟨hL0, u, hu, hun, hui⟩
    · cases h1
    · subst hL0
      have hpkeys : p ∈ ((buildMaps ts).1).map Prod.fst :=
        (getKey_isSome_iff _ p).1 (by rw [hfp]; rfl)
      exact P2 p hpkeys t.Id hedge t.Id 0 (PathN.refl t.Id)

theorem c4_child_level_witness : getKey [("A", 0), ("B", 1)] "B" = some (0 + 1) :=
  c4_child_level [⟨"A", "Root", none⟩, ⟨"B", "Child", some "A"⟩] (by decide) 2
    [("A", 0), ("B", 1)] rfl ⟨"B", "Child", some "A"⟩ (by decide) "A" rfl 0 rfl

/-- C5 counterexample: the first record's parent D is never reached (it is
dangling: getKey gives none), yet the record's id X is present in the level
map with level 0, contributed by the duplicate root record of the same id. -/
theorem c5_counterexample :
    determine_levels 100 [⟨"X", "X1", some "D"⟩, ⟨"X", "X2", none⟩] = some [("X", 0)] ∧
    getKey [("X", 0)] "D" = none ∧
    getKey [("X", 0)] "X" = some 0 :=
  ⟨rfl, rfl, rfl⟩

/-- C5 (amended): for an input with pairwise distinct ids, a record whose
parent has no entry in the final level map is itself absent from that map;
and on the single self-parent record the returned level map is empty, for
every fuel (the traversal starts from no root at all). -/
theorem c5_unreached_absent :
    (∀ ts : List Territory, (ts.map Territory.Id).Nodup →
      ∀ fuel final, determine_levels fuel ts = some final →
      ∀ t, t ∈ ts → ∀ p, truthyParent t.ParentTerritory2Id = some p →
      getKey final p = none → getKey final t.Id = none) ∧
    ∀ fuel, determine_levels fuel [⟨"A", "A", some "A"⟩] = some [] := by
  constructor
  · intro ts HI fuel final h t ht p hp hnone
    obtain ⟨P1, P2⟩ := determine_levels_spec ts HI fuel final h
    have hedge : (p, t.Id) ∈ (buildMaps ts).2 := edge_mem ts t p ht hp
    have HT := targets_nodup ts HI
    by_cases hreach : ∃ r, r ∈ ((buildMaps ts).1).map Prod.fst ∧
        ∃ c, (r, c) ∈ (buildMaps ts).2 ∧ ∃ n, PathN (buildMaps ts).2 c t.Id n
    · exfalso
      obtain ⟨r, hr, c, hc, n, hpn⟩ := hreach
      cases n with
      | zero =>
        have hceq : c = t.Id := pathN_zero hpn
        rw [hceq] at hc
        obtain rfl : r = p := unique_incoming _ HT hc hedge
        have hnin : ∀ y, (y, r) ∉ (buildMaps ts).2 := roots_no_incoming ts HI r hr
        have hnt : r ∉ (buildMaps ts).2.map Prod.snd := by
          intro hmem
          obtain ⟨e, he, hsnd⟩ := List.mem_map.1 hmem
          have he2 : (e.1, e.2) ∈ (buildMaps ts).2 := he
          rw [hsnd] at he2
          exact hnin e.1 he2
        have hfp : getKey final r = getKey (buildMaps ts).1 r :=
          determine_levels_nontarget ts fuel final h r hnt
        have hsome : (getKey (buildMaps ts).1 r).isSome := (getKey_isSome_iff _ r).2 hr
        rw [← hfp, hnone] at hsome
        cases hsome
      | succ k =>
        obtain ⟨y, hy, hyt⟩ := pathN_tail hpn
        obtain rfl : y = p := unique_incoming _ HT hyt hedge
        have := P2 r hr c hc y k hy
        rw [this] at hnone
        cases hnone
    · have hnp : ∀ r, r ∈ ((buildMaps ts).1).map Prod.fst →
          ∀ c, (r, c) ∈ (buildMaps ts).2 → ∀ n, ¬ PathN (buildMaps ts).2 c t.Id n :=
        fun r hr c hc n hpn => hreach ⟨r, hr, c, hc, n, hpn⟩
      rw [P1 t.Id hnp]
      cases hg : getKey (buildMaps ts).1 t.Id with
      | none => rfl
      | some v =>
        rcases buildMapsAux_levels_some ts [] [] t.Id v hg with h1 | ⟨_, u, hu, hun, hui⟩
        · cases h1
        · have hut : u = t := List.inj_on_of_nodup_map HI hu ht hui
          rw [hut, hp] at hun
          cases hun
  · intro fuel
    rfl

theorem c5_unreached_absent_witness : getKey [("A", 0)] "B" = none :=
  c5_unreached_absent.1 [⟨"A", "R1", none⟩, ⟨"B", "B1", some "Z"⟩] (by decide) 1
    [("A", 0)] rfl ⟨"B", "B1", some "Z"⟩ (by decide) "Z" rfl rfl

/-- C6: whenever create_graph completes, the produced edge list carries, in
input order, exactly one directed edge (parentId, id) per record with a
truthy parent, and no edge for a record with a falsy parent. -/
theorem c6_edges (ts : List Territory) (levels : Levels) (g : GraphDescription)
    (h : create_graph ts levels = some g) :
    g.edges.map (fun e => (e.1, e.2.1)) =
      ts.filterMap (fun t => (truthyParent t.ParentTerritory2Id).map (fun p => (p, t.Id))) :=
  (create_graph_spec ts levels g h).2.1

theorem c6_edges_witness :
    ([("A", "B", "blue")] : List (String × String × String)).map (fun e => (e.1, e.2.1)) =
      ([⟨"A", "Root", none⟩, ⟨"B", "Child", some "A"⟩] : List Territory).filterMap
        (fun t => (truthyParent t.ParentTerritory2Id).map (fun p => (p, t.Id))) :=
  c6_edges [⟨"A", "Root", none⟩, ⟨"B", "Child", some "A"⟩] [("A", 0), ("B", 1)]
    { nodes := [("A", "Root"), ("B", "Child")], edges := [("A", "B", "blue")] } rfl

/-- C7: the palette has exactly six entries; whenever create_graph completes,
a record with a truthy parent and a leveled id contributes the edge colored
colors[level mod 6]; and any two levels congruent modulo the palette length
receive the identical color tag. -/
theorem c7_edge_color (ts : List Territory) (levels : Levels) (g : GraphDescription)
    (h : create_graph ts levels = some g) (t : Territory) (ht : t ∈ ts) (p : String)
    (hp : truthyParent t.ParentTerritory2Id = some p) (L : Nat)
    (hL : getKey levels t.Id = some L) :
    colors.length = 6 ∧ (p, t.Id, colorFor L) ∈ g.edges ∧
    ∀ L2, L2 % colors.length = L % colors.length → colorFor L2 = colorFor L := by
  refine ⟨rfl, (create_graph_spec ts levels g h).2.2 t ht p hp L hL, ?_⟩
  intro L2 h2
  simp [colorFor, h2]

theorem c7_edge_color_witness :
    ("X", "Y", colorFor 1) ∈
      ([("A", "B", "blue"), ("X", "Y", "blue")] : List (String × String × String)) :=
  (c7_edge_color
    [⟨"A", "A", none⟩, ⟨"B", "B", some "A"⟩, ⟨"X", "X", none⟩, ⟨"Y", "Y", some "X"⟩]
    [("A", 0), ("B", 1), ("X", 0), ("Y", 1)]
    { nodes := [("A", "A"), ("B", "B"), ("X", "X"), ("Y", "Y")],
      edges := [("A", "B", "blue"), ("X", "Y", "blue")] }
    rfl ⟨"Y", "Y", some "X"⟩ (by decide) "X" rfl 1 rfl).2.1

/-- C8 counterexample: on this duplicate-id input the children index built
by determine_levels keeps BOTH parent associations of the duplicated id X
(X stays a child of R although X's last-seen association names P2), whereas
the index described by the spec, in which the last-seen association wins,
drops X from R's children. -/
theorem c8_counterexample :
    childrenOf (buildMaps [⟨"R", "R", none⟩, ⟨"P2", "P2", some "R"⟩,
        ⟨"X", "X1", some "R"⟩, ⟨"X", "X2", some "P2"⟩]).2 "R" = ["P2", "X"] ∧
    childrenLastSeen [⟨"R", "R", none⟩, ⟨"P2", "P2", some "R"⟩,
        ⟨"X", "X1", some "R"⟩, ⟨"X", "X2", some "P2"⟩] "R" = ["P2"] :=
  ⟨rfl, rfl⟩

/-- C8 (amended): no association is dropped: the children index maps each
parent id p to the ids of ALL records naming p as truthy parent, in input
order; a duplicated id contributes one entry per record bearing it. -/
theorem c8_children_index (ts : List Territory) (p : String) :
    childrenOf (buildMaps ts).2 p =
      (ts.filter (fun t => truthyParent t.ParentTerritory2Id == some p)).map Territory.Id := by
  rw [buildMaps_edges]
  induction ts with
  | nil => rfl
  | cons t rest ih =>
    cases hp : truthyParent t.ParentTerritory2Id with
    | none =>
      simpa [List.filterMap_cons, List.filter_cons, hp] using ih
    | some q =>
      by_cases hqp : q = p
      · subst hqp
        simpa [childrenOf, List.filterMap_cons, List.filter_cons, hp] using ih
      · simpa [childrenOf, List.filterMap_cons, List.filter_cons, hp, hqp] using ih

/-- C9: graph building is deterministic: the graph description is a pure
function of the records and the level map, so two completed invocations on
the same inputs yield equal descriptions (the embedding is pure because the
source mutates only its local dot object, never the records or the levels). -/
theorem c9_deterministic (ts : List Territory) (levels : Levels)
    (g1 g2 : GraphDescription) (h1 : create_graph ts levels = some g1)
    (h2 : create_graph ts levels = some g2) : g1 = g2 := by
  rw [h1] at h2
  exact Option.some.inj h2

theorem c9_deterministic_witness :
    ({ nodes := [("A", "Root")], edges := [] } : GraphDescription) =
      { nodes := [("A", "Root")], edges := [] } :=
  c9_deterministic [⟨"A", "Root", none⟩] []
    { nodes := [("A", "Root")], edges := [] }
    { nodes := [("A", "Root")], edges := [] } rfl rfl

/-- C10 counterexample: the first record's parent is the empty string, yet
its id C ends at level 1, because the duplicate record of the same id makes
C a child of the root D; so an empty-string parent does not guarantee level
0. -/
theorem c10_counterexample :
    determine_levels 100 [⟨"C", "C1", some ""⟩, ⟨"D", "D1", none⟩, ⟨"C", "C2", some "D"⟩] =
      some [("C", 1), ("D", 0)] ∧
    getKey [("C", 1), ("D", 0)] "C" = some 1 :=
  ⟨rfl, rfl⟩

/-- C10 (amended): a record whose parent field is the empty string is
treated as a root by both operations, provided no record with a truthy
parent bears the same id: determine_levels assigns its id level 0 whenever
it completes, and create_graph emits no edge pointing at that id. -/
theorem c10_empty_parent_root (ts : List Territory) (fuel : Nat) (final : Levels)
    (h : determine_levels fuel ts = some final) (t : Territory) (ht : t ∈ ts)
    (hpar : t.ParentTerritory2Id = some "")
    (hsole : ∀ u, u ∈ ts → u.Id = t.Id → truthyParent u.ParentTerritory2Id = none) :
    getKey final t.Id = some 0 ∧
    ∀ lv g, create_graph ts lv = some g → ∀ e, e ∈ g.edges → e.2.1 ≠ t.Id := by
  have hroot : truthyParent t.ParentTerritory2Id = none := by rw [hpar]; rfl
  constructor
  · exact root_id_level_zero ts fuel final h t ht hroot hsole
  · intro lv g hg e he het
    obtain ⟨_, hedges, _⟩ := create_graph_spec ts lv g hg
    have hmem : (e.1, e.2.1) ∈ g.edges.map (fun e0 => (e0.1, e0.2.1)) :=
      List.mem_map.2 ⟨e, he, rfl⟩
    rw [hedges] at hmem
    obtain ⟨u, hu, hf⟩ := List.mem_filterMap.1 hmem
    cases hq : truthyParent u.ParentTerritory2Id with
    | none =>
      rw [hq] at hf
      cases hf
    | some q =>
      rw [hq] at hf
      have hpair := Option.some.inj hf
      have hui : u.Id = e.2.1 := congrArg Prod.snd hpair
      have hnone := hsole u hu (hui.trans het)
      rw [hnone] at hq
      cases hq

theorem c10_empty_parent_root_witness : getKey [("E", 0)] "E" = some 0 :=
  (c10_empty_parent_root [⟨"E", "E1", some ""⟩] 1 [("E", 0)] rfl ⟨"E", "E1", some ""⟩
    (by decide) rfl (by decide)).1

end TmApp
